import Mathlib

/-!
Verification of the split-candidate frontier
(`secretflow/ml/boost/sgb_v/factory/components/split_candidate_manager/split_candidate_manager.py`).

The Python module keeps split candidates in a list managed by CPython's
`heapq` (`heappush` / `heappop`), with `SplitCandidate.__lt__` reversed
(`self.info.max_gain > other.info.max_gain`) so the min-heap behaves as a
max-heap on `max_gain`.  We embed the data model, the exact `heapq`
sift algorithms, the heap operations and the manager facade, and prove the
frontier properties.

Python floats are modelled as rationals, `np.ndarray` boolean masks as
`List Bool`, Python ints as `Int`.  Fallible operations return
`Except`/`Option` values mirroring the exception Python would raise.
-/

/-- Mirrors the `SplitCandidateInfo` dataclass: sample selects, max gain,
split bucket. -/
structure SplitCandidateInfo where
  sample_selects : List Bool
  max_gain : ℚ
  split_bucket : Int
deriving DecidableEq

/-- Mirrors the `SplitCandidate` class: a node index plus its info. -/
structure SplitCandidate where
  node_index : Int
  info : SplitCandidateInfo
deriving DecidableEq

/-- `SplitCandidate.__lt__`: `self.info.max_gain > other.info.max_gain`
(reversed ordering, so the `heapq` min-heap acts as a max-heap on gain). -/
def SplitCandidate.lt (a b : SplitCandidate) : Bool :=
  decide (b.info.max_gain < a.info.max_gain)

/-- `SplitCandidate.__eq__`: equality of `max_gain` only. -/
def SplitCandidate.eqGain (a b : SplitCandidate) : Bool :=
  decide (a.info.max_gain = b.info.max_gain)

/-- Default candidate, used only to make list indexing total (`List.getD`);
every index we ever read is in range. -/
def dC : SplitCandidate := ⟨0, ⟨[], 0, 0⟩⟩

instance : Inhabited SplitCandidate := ⟨dC⟩

/-- Read entry `i` of the backing list (Python `heap[i]`). -/
def gd (l : List SplitCandidate) (i : Nat) : SplitCandidate := l.getD i dC

/-- Parent index in the implicit binary heap: `(i - 1) >> 1`. -/
def par (i : Nat) : Nat := (i - 1) / 2

/-- CPython `heapq._siftdown(heap, startpos, pos)`: bubble `newitem` up from
`pos` toward `startpos`, moving larger-priority parents down. -/
def siftdownAux (arr : List SplitCandidate) (startpos pos : Nat)
    (newitem : SplitCandidate) : List SplitCandidate :=
  if _h : startpos < pos then
    if SplitCandidate.lt newitem (gd arr ((pos - 1) / 2)) then
      siftdownAux (arr.set pos (gd arr ((pos - 1) / 2))) startpos ((pos - 1) / 2) newitem
    else
      arr.set pos newitem
  else
    arr.set pos newitem
termination_by pos
decreasing_by omega

/-- CPython `heapq._siftup(heap, pos)` body: move the hole at `pos` down to a
leaf, always following the child that sorts first, then write `newitem` and
bubble it back up with `_siftdown`. -/
def siftupAux (arr : List SplitCandidate) (pos : Nat)
    (newitem : SplitCandidate) : List SplitCandidate :=
  if h1 : 2 * pos + 1 < arr.length then
    if _h2 : 2 * pos + 2 < arr.length ∧
        SplitCandidate.lt (gd arr (2 * pos + 1)) (gd arr (2 * pos + 2)) = false then
      siftupAux (arr.set pos (gd arr (2 * pos + 2))) (2 * pos + 2) newitem
    else
      siftupAux (arr.set pos (gd arr (2 * pos + 1))) (2 * pos + 1) newitem
  else
    siftdownAux (arr.set pos newitem) 0 pos newitem
termination_by arr.length - pos
decreasing_by
  · simp only [List.length_set]; omega
  · simp only [List.length_set]; omega

/-- CPython `heapq._siftup(heap, pos)` with `newitem = heap[pos]`. -/
def siftup (arr : List SplitCandidate) (pos : Nat) : List SplitCandidate :=
  siftupAux arr pos (gd arr pos)

/-- CPython `heapq.heappush(heap, item)`. -/
def heappush (heap : List SplitCandidate) (item : SplitCandidate) :
    List SplitCandidate :=
  siftdownAux (heap ++ [item]) 0 heap.length item

/-- The exceptions the Python module can raise: `IndexError` from list/array
indexing, `IndexError: pop from empty list` from `heappop` on an empty heap,
and `AttributeError` from calling a method on `self.heap = None`. -/
inductive PyErr where
  | indexError : PyErr
  | popFromEmptyList : PyErr
  | noneAttributeError : PyErr
deriving DecidableEq

/-- CPython `heapq.heappop(heap)`: raises on an empty list, otherwise removes
the last element, swaps it into the root, and sifts it down. -/
def heappop : List SplitCandidate → Except PyErr (SplitCandidate × List SplitCandidate)
  | [] => .error .popFromEmptyList
  | [x] => .ok (x, [])
  | x :: y :: rest =>
    .ok (x, siftup ((y :: rest).getLast (by simp) :: (y :: rest).dropLast) 0)

namespace SplitCandidateHeap

/-- `SplitCandidateHeap.__init__`: `self.heap = []`. -/
def init : List SplitCandidate := []

/-- `SplitCandidateHeap.push`. -/
def push (heap : List SplitCandidate) (node_index : Int)
    (sample_selects : List Bool) (max_gain : ℚ) (split_bucket : Int) :
    List SplitCandidate :=
  heappush heap ⟨node_index, ⟨sample_selects, max_gain, split_bucket⟩⟩

/-- Loop body of `SplitCandidateHeap.batch_push`: iterate over
`gain_is_cost_effective` with absolute index `i`; on an effective index,
index all four data arrays (raising `IndexError` if out of range, with the
heap keeping everything pushed so far) and push. -/
def batch_pushGo (node_indices : List Int) (node_sample_selects : List (List Bool))
    (split_buckets : List Int) (split_gains : List ℚ) :
    List Bool → Nat → List SplitCandidate → Option PyErr × List SplitCandidate
  | [], _, heap => (none, heap)
  | effective :: rest, i, heap =>
    if effective then
      match node_indices.get? i, node_sample_selects.get? i,
          split_gains.get? i, split_buckets.get? i with
      | some a, some s, some g, some b =>
        batch_pushGo node_indices node_sample_selects split_buckets split_gains
          rest (i + 1) (push heap a s g b)
      | _, _, _, _ => (some .indexError, heap)
    else
      batch_pushGo node_indices node_sample_selects split_buckets split_gains
        rest (i + 1) heap

/-- `SplitCandidateHeap.batch_push`: returns the raised exception (if any)
together with the heap state after the call. -/
def batch_push (heap : List SplitCandidate) (node_indices : List Int)
    (node_sample_selects : List (List Bool)) (split_buckets : List Int)
    (split_gains : List ℚ) (gain_is_cost_effective : List Bool) :
    Option PyErr × List SplitCandidate :=
  batch_pushGo node_indices node_sample_selects split_buckets split_gains
    gain_is_cost_effective 0 heap

/-- `SplitCandidateHeap.pop`: `heapq.heappop(self.heap)`. -/
def pop (heap : List SplitCandidate) :
    Except PyErr (SplitCandidate × List SplitCandidate) :=
  heappop heap

/-- `SplitCandidateHeap.extract_best_split_info`. -/
def extract_best_split_info (heap : List SplitCandidate) :
    Except PyErr ((Int × List Bool × Int) × List SplitCandidate) :=
  match heappop heap with
  | .error e => .error e
  | .ok (best, h') =>
    .ok ((best.node_index, best.info.sample_selects, best.info.split_bucket), h')

/-- `SplitCandidateHeap.extract_all_nodes`: list the node indices and sample
selects of every stored candidate, then clear the heap. -/
def extract_all_nodes (heap : List SplitCandidate) :
    (List Int × List (List Bool)) × List SplitCandidate :=
  ((heap.map (fun c => c.node_index), heap.map (fun c => c.info.sample_selects)), [])

/-- `SplitCandidateHeap.reset`: `self.heap = []`. -/
def reset (_heap : List SplitCandidate) : List SplitCandidate := []

end SplitCandidateHeap

/-- `SplitCandidateManager` state: `self.heap` is `None` until `set_devices`
binds the label holder and creates the `SplitCandidateHeap`. -/
structure SplitCandidateManager where
  heap : Option (List SplitCandidate)

namespace SplitCandidateManager

/-- `SplitCandidateManager.__init__`: `self.heap = None`. -/
def init : SplitCandidateManager := ⟨none⟩

/-- `SplitCandidateManager.set_devices`: creates the (empty) heap on the
label holder. -/
def set_devices (_m : SplitCandidateManager) : SplitCandidateManager :=
  ⟨some SplitCandidateHeap.init⟩

/-- `SplitCandidateManager.push`: delegates to `self.heap.push`;
`AttributeError` if `self.heap` is `None`. -/
def push (m : SplitCandidateManager) (node_index : Int)
    (sample_selects : List Bool) (max_gain : ℚ) (split_bucket : Int) :
    Except PyErr SplitCandidateManager :=
  match m.heap with
  | none => .error .noneAttributeError
  | some h =>
    .ok ⟨some (SplitCandidateHeap.push h node_index sample_selects max_gain split_bucket)⟩

/-- `SplitCandidateManager.batch_push`: delegates to `self.heap.batch_push`. -/
def batch_push (m : SplitCandidateManager) (node_indices : List Int)
    (node_sample_selects : List (List Bool)) (split_buckets : List Int)
    (split_gains : List ℚ) (gain_is_cost_effective : List Bool) :
    Option PyErr × SplitCandidateManager :=
  match m.heap with
  | none => (some .noneAttributeError, m)
  | some h =>
    let r := SplitCandidateHeap.batch_push h node_indices node_sample_selects
      split_buckets split_gains gain_is_cost_effective
    (r.1, ⟨some r.2⟩)

/-- `SplitCandidateManager.extract_best_split_info`. -/
def extract_best_split_info (m : SplitCandidateManager) :
    Except PyErr ((Int × List Bool × Int) × SplitCandidateManager) :=
  match m.heap with
  | none => .error .noneAttributeError
  | some h =>
    match SplitCandidateHeap.extract_best_split_info h with
    | .error e => .error e
    | .ok (r, h') => .ok (r, ⟨some h'⟩)

/-- `SplitCandidateManager.extract_all_nodes`. -/
def extract_all_nodes (m : SplitCandidateManager) :
    Except PyErr ((List Int × List (List Bool)) × SplitCandidateManager) :=
  match m.heap with
  | none => .error .noneAttributeError
  | some h =>
    let r := SplitCandidateHeap.extract_all_nodes h
    .ok (r.1, ⟨some r.2⟩)

/-- `SplitCandidateManager.reset`. -/
def reset (m : SplitCandidateManager) : Except PyErr SplitCandidateManager :=
  match m.heap with
  | none => .error .noneAttributeError
  | some h => .ok ⟨some (SplitCandidateHeap.reset h)⟩

end SplitCandidateManager

/-! ### Basic facts about list reads, writes and permutations -/

open List

theorem gd_eq_getElem (l : List SplitCandidate) {i : Nat} (h : i < l.length) :
    gd l i = l[i] := by
  simp [gd, List.getD_eq_getElem, h]

theorem gd_set_self (l : List SplitCandidate) {i : Nat} (x : SplitCandidate)
    (h : i < l.length) : gd (l.set i x) i = x := by
  simp [gd, List.getD_eq_getElem?_getD, List.getElem?_set_self h]

theorem gd_set_ne (l : List SplitCandidate) {i j : Nat} (x : SplitCandidate)
    (h : i ≠ j) : gd (l.set i x) j = gd l j := by
  simp [gd, List.getD_eq_getElem?_getD, List.getElem?_set_ne h]

theorem gd_append_left (l₁ l₂ : List SplitCandidate) {i : Nat}
    (h : i < l₁.length) : gd (l₁ ++ l₂) i = gd l₁ i := by
  simp [gd, List.getD_eq_getElem?_getD, List.getElem?_append, h]

theorem gd_append_length (l : List SplitCandidate) (x : SplitCandidate) :
    gd (l ++ [x]) l.length = x := by
  simp [gd, List.getD_eq_getElem?_getD, List.getElem?_append]

theorem gd_cons_succ (a : SplitCandidate) (t : List SplitCandidate) (i : Nat) :
    gd (a :: t) (i + 1) = gd t i := rfl

theorem gd_cons_zero (a : SplitCandidate) (t : List SplitCandidate) :
    gd (a :: t) 0 = a := rfl

theorem perm_cons_eraseIdx :
    ∀ (l : List SplitCandidate) (i : Nat), i < l.length →
      l.Perm (gd l i :: l.eraseIdx i)
  | [], i, h => by simp at h
  | a :: t, 0, _ => by simp [gd_cons_zero]
  | a :: t, i + 1, h => by
    have ih := perm_cons_eraseIdx t i (by simpa using h)
    calc a :: t ~ a :: (gd t i :: t.eraseIdx i) := ih.cons a
      _ ~ gd t i :: a :: t.eraseIdx i := List.Perm.swap _ _ _
      _ = gd (a :: t) (i + 1) :: (a :: t).eraseIdx (i + 1) := rfl

theorem perm_set :
    ∀ (l : List SplitCandidate) (i : Nat) (x : SplitCandidate), i < l.length →
      (l.set i x).Perm (x :: l.eraseIdx i)
  | [], i, x, h => by simp at h
  | a :: t, 0, x, _ => by simp
  | a :: t, i + 1, x, h => by
    have ih := perm_set t i x (by simpa using h)
    calc (a :: t).set (i + 1) x = a :: t.set i x := rfl
      _ ~ a :: (x :: t.eraseIdx i) := ih.cons a
      _ ~ x :: a :: t.eraseIdx i := List.Perm.swap _ _ _
      _ = x :: (a :: t).eraseIdx (i + 1) := rfl

theorem perm_set_set :
    ∀ (l : List SplitCandidate) (i j : Nat) (x : SplitCandidate),
      i < l.length → j < l.length →
      ((l.set i (gd l j)).set j x).Perm (l.set i x)
  | [], i, j, x, hi, _ => by simp at hi
  | a :: t, 0, 0, x, _, _ => by
    rw [List.set_set]
  | a :: t, 0, j + 1, x, _, hj => by
    have hj' : j < t.length := by simpa using hj
    calc ((a :: t).set 0 (gd (a :: t) (j + 1))).set (j + 1) x
        = gd t j :: t.set j x := rfl
      _ ~ gd t j :: (x :: t.eraseIdx j) := (perm_set t j x hj').cons _
      _ ~ x :: gd t j :: t.eraseIdx j := List.Perm.swap _ _ _
      _ ~ x :: t := ((perm_cons_eraseIdx t j hj').symm).cons x
      _ = (a :: t).set 0 x := rfl
  | a :: t, i + 1, 0, x, hi, _ => by
    have hi' : i < t.length := by simpa using hi
    calc ((a :: t).set (i + 1) (gd (a :: t) 0)).set 0 x
        = x :: t.set i a := rfl
      _ ~ x :: (a :: t.eraseIdx i) := (perm_set t i a hi').cons x
      _ ~ a :: x :: t.eraseIdx i := List.Perm.swap _ _ _
      _ ~ a :: t.set i x := ((perm_set t i x hi').symm).cons a
      _ = (a :: t).set (i + 1) x := rfl
  | a :: t, i + 1, j + 1, x, hi, hj => by
    have ih := perm_set_set t i j x (by simpa using hi) (by simpa using hj)
    calc ((a :: t).set (i + 1) (gd (a :: t) (j + 1))).set (j + 1) x
        = a :: (t.set i (gd t j)).set j x := rfl
      _ ~ a :: t.set i x := ih.cons a
      _ = (a :: t).set (i + 1) x := rfl

/-! ### Permutation content of the sift operations -/

theorem siftdownAux_perm :
    ∀ (pos : Nat) (arr : List SplitCandidate) (newitem : SplitCandidate),
      pos < arr.length →
      (siftdownAux arr 0 pos newitem).Perm (arr.set pos newitem) := by
  intro pos
  induction pos using Nat.strong_induction_on with
  | _ pos ih =>
    intro arr newitem hpos
    rw [siftdownAux]
    split
    · next h0 =>
      split
      · next hlt =>
        have hpp : (pos - 1) / 2 < pos := by omega
        have hlen : (pos - 1) / 2 < (arr.set pos (gd arr ((pos - 1) / 2))).length := by
          simp only [List.length_set]; omega
        refine (ih ((pos - 1) / 2) hpp _ newitem hlen).trans ?_
        exact perm_set_set arr pos ((pos - 1) / 2) newitem hpos (by omega)
      · exact List.Perm.refl _
    · exact List.Perm.refl _

theorem siftupAux_perm :
    ∀ (k : Nat) (arr : List SplitCandidate) (pos : Nat) (newitem : SplitCandidate),
      arr.length - pos ≤ k → pos < arr.length →
      (siftupAux arr pos newitem).Perm (arr.set pos newitem) := by
  intro k
  induction k with
  | zero => intro arr pos newitem hk hpos; omega
  | succ k ih =>
    intro arr pos newitem hk hpos
    rw [siftupAux]
    split
    · next h1 =>
      split
      · next h2 =>
        have hc : 2 * pos + 2 < arr.length := h2.1
        refine (ih _ (2 * pos + 2) newitem (by simp only [List.length_set]; omega)
          (by simp only [List.length_set]; omega)).trans ?_
        exact perm_set_set arr pos (2 * pos + 2) newitem hpos hc
      · refine (ih _ (2 * pos + 1) newitem (by simp only [List.length_set]; omega)
          (by simp only [List.length_set]; omega)).trans ?_
        exact perm_set_set arr pos (2 * pos + 1) newitem hpos h1
    · refine (siftdownAux_perm pos _ newitem (by simp only [List.length_set]; omega)).trans ?_
      rw [List.set_set]

theorem set_append_length (l : List SplitCandidate) (x : SplitCandidate) :
    (l ++ [x]).set l.length x = l ++ [x] := by
  induction l with
  | nil => rfl
  | cons a t ihl => simp [List.set, ihl]

theorem heappush_perm (heap : List SplitCandidate) (item : SplitCandidate) :
    (heappush heap item).Perm (item :: heap) := by
  unfold heappush
  refine (siftdownAux_perm heap.length (heap ++ [item]) item (by simp)).trans ?_
  rw [set_append_length]
  exact List.perm_append_singleton item heap

theorem heappop_perm (l : List SplitCandidate) (c : SplitCandidate)
    (h' : List SplitCandidate) (h : heappop l = .ok (c, h')) :
    l.Perm (c :: h') := by
  match l, h with
  | [x], h =>
    rw [heappop] at h
    cases h
    exact List.Perm.refl _
  | x :: y :: rest, h =>
    rw [heappop] at h
    cases h
    have hne : (y :: rest) ≠ [] := by simp
    have hlast : (y :: rest).getLast hne :: (y :: rest).dropLast ≠ [] := by simp
    have hposlen : 0 < ((y :: rest).getLast hne :: (y :: rest).dropLast).length := by simp
    refine List.Perm.cons _ ?_
    refine List.Perm.trans ?_ (siftupAux_perm _ _ 0 _ le_rfl hposlen).symm
    have : ((y :: rest).getLast hne :: (y :: rest).dropLast).set 0
        (gd ((y :: rest).getLast hne :: (y :: rest).dropLast) 0)
        = (y :: rest).getLast hne :: (y :: rest).dropLast := by
      simp [gd_cons_zero, List.set]
    rw [this]
    refine List.Perm.trans ?_ (List.perm_append_singleton _ _)
    rw [List.dropLast_append_getLast hne]

/-! ### The heap invariant and its preservation -/

/-- Gain stored at index `i`. -/
def G (l : List SplitCandidate) (i : Nat) : ℚ := (gd l i).info.max_gain

/-- The `heapq` invariant under the reversed `SplitCandidate.__lt__`: every
non-root entry's gain is at most its parent's gain, so the root carries the
maximum gain. -/
def IsHeap (l : List SplitCandidate) : Prop :=
  ∀ i, 0 < i → i < l.length → G l i ≤ G l (par i)

theorem lt_eq_true_iff (a b : SplitCandidate) :
    SplitCandidate.lt a b = true ↔ b.info.max_gain < a.info.max_gain := by
  simp [SplitCandidate.lt]

theorem lt_eq_false_iff (a b : SplitCandidate) :
    SplitCandidate.lt a b = false ↔ a.info.max_gain ≤ b.info.max_gain := by
  simp [SplitCandidate.lt]

theorem G_set_self (l : List SplitCandidate) {i : Nat} (x : SplitCandidate)
    (h : i < l.length) : G (l.set i x) i = x.info.max_gain := by
  simp [G, gd_set_self l x h]

theorem G_set_ne (l : List SplitCandidate) {i j : Nat} (x : SplitCandidate)
    (h : i ≠ j) : G (l.set i x) j = G l j := by
  simp [G, gd_set_ne l x h]

theorem isHeap_le_root (l : List SplitCandidate) (hl : IsHeap l) :
    ∀ i, i < l.length → G l i ≤ G l 0 := by
  intro i
  induction i using Nat.strong_induction_on with
  | _ i ih =>
    intro hi
    rcases Nat.eq_zero_or_pos i with h0 | h0
    · subst h0; exact le_refl _
    · have hpar : par i < i := by unfold par; omega
      exact le_trans (hl i h0 hi) (ih (par i) hpar (lt_trans hpar hi))

theorem siftdownAux_isHeap :
    ∀ (pos : Nat) (arr : List SplitCandidate) (ip : Nat) (newitem : SplitCandidate),
      pos < arr.length → pos ≤ ip →
      (∀ i, i < arr.length → 0 < i → par i ≠ ip) →
      (∀ i, i < arr.length → 0 < i → i ≠ pos → par i ≠ pos → G arr i ≤ G arr (par i)) →
      (∀ i, i < arr.length → 0 < i → par i = pos → G arr i ≤ G arr pos) →
      (pos = ip ∨ G arr pos ≤ G arr (par pos)) →
      (pos = ip ∨ G arr pos < newitem.info.max_gain) →
      IsHeap (siftdownAux arr 0 pos newitem) := by
  intro pos
  induction pos using Nat.strong_induction_on with
  | _ pos ih =>
    intro arr ip newitem hpos hpi D0 D1 D2 D3 D4
    rw [siftdownAux]
    split
    · -- 0 < pos
      next hp0 =>
      have hpp_lt : (pos - 1) / 2 < pos := by omega
      have hpp_par : par pos = (pos - 1) / 2 := rfl
      split
      · -- continue: newitem sorts before the parent, move the parent down
        next hlt =>
        have hGpp : G arr ((pos - 1) / 2) < newitem.info.max_gain :=
          (lt_eq_true_iff _ _).mp hlt
        refine ih ((pos - 1) / 2) hpp_lt _ ip newitem ?_ (by omega) ?_ ?_ ?_ ?_ ?_
        · simp only [List.length_set]; omega
        · intro i hi hi0
          exact D0 i (by simpa using hi) hi0
        · -- D1 for the new array
          intro i hi hi0 hip hipp
          simp only [List.length_set] at hi
          by_cases hieq : i = pos
          · exfalso; apply hipp; rw [hieq]; exact hpp_par
          · by_cases hpari : par i = pos
            · rw [G_set_ne arr _ (Ne.symm hieq), hpari,
                G_set_self arr _ hpos]
              rcases D3 with h3 | h3
              · exact absurd (h3 ▸ hpari) (D0 i hi hi0)
              · exact le_trans (D2 i hi hi0 hpari) (hpp_par ▸ h3)
            · rw [G_set_ne arr _ (Ne.symm hieq), G_set_ne arr _ (Ne.symm hpari)]
              exact D1 i hi hi0 hieq hpari
        · -- D2 for the new array
          intro i hi hi0 hpari
          simp only [List.length_set] at hi
          have hppne : (pos - 1) / 2 ≠ pos := by omega
          rw [G_set_ne arr _ (Ne.symm hppne)]
          by_cases hieq : i = pos
          · rw [hieq, G_set_self arr _ hpos]
            exact le_refl _
          · rw [G_set_ne arr _ (Ne.symm hieq)]
            have : par i ≠ pos := by rw [hpari]; omega
            have := D1 i hi hi0 hieq this
            rwa [hpari] at this
        · -- D3 for the new array
          right
          rcases Nat.eq_zero_or_pos ((pos - 1) / 2) with hz | hz
          · rw [hz]; exact le_refl _
          · have h1 : (pos - 1) / 2 ≠ pos := by omega
            have h2 : par ((pos - 1) / 2) ≠ pos := by unfold par; omega
            rw [G_set_ne arr _ (Ne.symm h1), G_set_ne arr _ (Ne.symm h2)]
            exact D1 _ (by omega) hz h1 h2
        · -- D4 for the new array
          right
          have h1 : (pos - 1) / 2 ≠ pos := by omega
          rw [G_set_ne arr _ (Ne.symm h1)]
          exact hGpp
      · -- stop: write newitem at pos
        next hlt =>
        have hGpp : newitem.info.max_gain ≤ G arr ((pos - 1) / 2) :=
          (lt_eq_false_iff _ _).mp (Bool.eq_false_iff.mpr hlt)
        intro i hi0 hi
        simp only [List.length_set] at hi
        by_cases hieq : i = pos
        · subst hieq
          have hppne : par i ≠ i := by unfold par; omega
          rw [G_set_self arr _ hpos, G_set_ne arr _ hppne.symm]
          exact hGpp
        · by_cases hpari : par i = pos
          · rw [G_set_ne arr _ (Ne.symm hieq), hpari, G_set_self arr _ hpos]
            rcases D4 with h4 | h4
            · exact absurd (h4 ▸ hpari) (D0 i hi hi0)
            · exact le_of_lt (lt_of_le_of_lt (D2 i hi hi0 hpari) h4)
          · rw [G_set_ne arr _ (Ne.symm hieq), G_set_ne arr _ (Ne.symm hpari)]
            exact D1 i hi hi0 hieq hpari
    · -- pos = 0: write newitem at the root
      next hp0 =>
      have hpz : pos = 0 := by omega
      subst hpz
      intro i hi0 hi
      simp only [List.length_set] at hi
      have hieq : i ≠ 0 := by omega
      by_cases hpari : par i = 0
      · rw [G_set_ne arr _ (Ne.symm hieq), hpari, G_set_self arr _ hpos]
        rcases D4 with h4 | h4
        · exact absurd (h4 ▸ hpari) (D0 i hi hi0)
        · exact le_of_lt (lt_of_le_of_lt (D2 i hi hi0 hpari) h4)
      · rw [G_set_ne arr _ (Ne.symm hieq), G_set_ne arr _ (Ne.symm hpari)]
        exact D1 i hi hi0 hieq hpari

theorem G_append_left (l₁ l₂ : List SplitCandidate) {i : Nat}
    (h : i < l₁.length) : G (l₁ ++ l₂) i = G l₁ i := by
  simp [G, gd_append_left l₁ l₂ h]

theorem heappush_isHeap (heap : List SplitCandidate) (item : SplitCandidate)
    (hh : IsHeap heap) : IsHeap (heappush heap item) := by
  unfold heappush
  refine siftdownAux_isHeap heap.length (heap ++ [item]) heap.length item
    (by simp) le_rfl ?_ ?_ ?_ (Or.inl rfl) (Or.inl rfl)
  · intro i hi hi0
    simp only [List.length_append, List.length_singleton] at hi
    unfold par; omega
  · intro i hi hi0 hip _hipp
    simp only [List.length_append, List.length_singleton] at hi
    have hi' : i < heap.length := by omega
    have hpar' : par i < heap.length := by unfold par; omega
    rw [G_append_left heap [item] hi', G_append_left heap [item] hpar']
    exact hh i hi0 hi'
  · intro i hi hi0 hpari
    simp only [List.length_append, List.length_singleton] at hi
    exfalso; unfold par at hpari; omega

theorem siftupAux_isHeap :
    ∀ (k : Nat) (arr : List SplitCandidate) (pos : Nat) (newitem : SplitCandidate),
      arr.length - pos ≤ k → pos < arr.length →
      (∀ i, i < arr.length → 0 < i → i ≠ pos → par i ≠ pos → G arr i ≤ G arr (par i)) →
      (∀ i, i < arr.length → 0 < pos → par i = pos → G arr i ≤ G arr pos) →
      (0 < pos → gd arr (par pos) = gd arr pos) →
      IsHeap (siftupAux arr pos newitem) := by
  intro k
  induction k with
  | zero => intro arr pos newitem hk hpos; omega
  | succ k ih =>
    intro arr pos newitem hk hpos W1 W2 W3
    rw [siftupAux]
    split
    · next h1 =>
      split
      · -- right child chosen: c = 2*pos+2
        next h2 =>
        have hc : 2 * pos + 2 < arr.length := h2.1
        have hsib : G arr (2 * pos + 1) ≤ G arr (2 * pos + 2) :=
          (lt_eq_false_iff _ _).mp h2.2
        have hparc : par (2 * pos + 2) = pos := by unfold par; omega
        refine ih _ (2 * pos + 2) newitem (by simp only [List.length_set]; omega)
          (by simp only [List.length_set]; omega) ?_ ?_ ?_
        · intro i hi hi0 hic hipc
          simp only [List.length_set] at hi
          by_cases hieq : i = pos
          · subst hieq
            have hp0 : 0 < i := hi0
            have hppi : par i ≠ i := by unfold par; omega
            have hppc : par i ≠ 2 * i + 2 := by unfold par; omega
            rw [G_set_self arr _ hpos, G_set_ne arr _ hppi.symm]
            have hW3 : gd arr (par i) = gd arr i := W3 hi0
            have : G arr (par i) = G arr i := by rw [G, G, hW3]
            rw [this]
            exact W2 (2 * i + 2) hc hi0 hparc
          · by_cases hpari : par i = pos
            · -- sibling of the chosen child: i = 2*pos+1
              have hi1 : i = 2 * pos + 1 := by unfold par at hpari; omega
              rw [G_set_ne arr _ (Ne.symm hieq), hpari, G_set_self arr _ hpos]
              rw [hi1]; exact hsib
            · rw [G_set_ne arr _ (Ne.symm hieq), G_set_ne arr _ (Ne.symm hpari)]
              exact W1 i hi hi0 hieq hpari
        · intro i hi _hc0 hpari
          simp only [List.length_set] at hi
          have hi0 : 0 < i := by unfold par at hpari; omega
          have hieq : i ≠ pos := by unfold par at hpari; omega
          have hcp : 2 * pos + 2 ≠ pos := by omega
          rw [G_set_ne arr _ (Ne.symm hieq), G_set_ne arr _ (Ne.symm hcp)]
          have := W1 i hi hi0 hieq (by rw [hpari]; omega)
          rwa [hpari] at this
        · intro _hc0
          rw [hparc]
          have hcp : 2 * pos + 2 ≠ pos := by omega
          rw [gd_set_self arr _ hpos, gd_set_ne arr _ hcp.symm]
      · -- left child chosen: c = 2*pos+1
        next h2 =>
        have hparc : par (2 * pos + 1) = pos := by unfold par; omega
        refine ih _ (2 * pos + 1) newitem (by simp only [List.length_set]; omega)
          (by simp only [List.length_set]; omega) ?_ ?_ ?_
        · intro i hi hi0 hic hipc
          simp only [List.length_set] at hi
          by_cases hieq : i = pos
          · subst hieq
            have hppi : par i ≠ i := by unfold par; omega
            rw [G_set_self arr _ hpos, G_set_ne arr _ hppi.symm]
            have hW3 : gd arr (par i) = gd arr i := W3 hi0
            have : G arr (par i) = G arr i := by rw [G, G, hW3]
            rw [this]
            exact W2 (2 * i + 1) h1 hi0 hparc
          · by_cases hpari : par i = pos
            · -- sibling of the chosen child: i = 2*pos+2
              have hi2 : i = 2 * pos + 2 := by unfold par at hpari; omega
              have hi2len : 2 * pos + 2 < arr.length := by omega
              have hlt : SplitCandidate.lt (gd arr (2 * pos + 1)) (gd arr (2 * pos + 2)) = true := by
                rcases Bool.eq_false_or_eq_true
                  (SplitCandidate.lt (gd arr (2 * pos + 1)) (gd arr (2 * pos + 2))) with ht | hf
                · exact ht
                · exact absurd ⟨hi2len, hf⟩ h2
              have hsib : G arr (2 * pos + 2) < G arr (2 * pos + 1) :=
                (lt_eq_true_iff _ _).mp hlt
              rw [G_set_ne arr _ (Ne.symm hieq), hpari, G_set_self arr _ hpos]
              rw [hi2]; exact le_of_lt hsib
            · rw [G_set_ne arr _ (Ne.symm hieq), G_set_ne arr _ (Ne.symm hpari)]
              exact W1 i hi hi0 hieq hpari
        · intro i hi _hc0 hpari
          simp only [List.length_set] at hi
          have hi0 : 0 < i := by unfold par at hpari; omega
          have hieq : i ≠ pos := by unfold par at hpari; omega
          have hcp : 2 * pos + 1 ≠ pos := by omega
          rw [G_set_ne arr _ (Ne.symm hieq), G_set_ne arr _ (Ne.symm hcp)]
          have := W1 i hi hi0 hieq (by rw [hpari]; omega)
          rwa [hpari] at this
        · intro _hc0
          rw [hparc]
          have hcp : 2 * pos + 1 ≠ pos := by omega
          rw [gd_set_self arr _ hpos, gd_set_ne arr _ hcp.symm]
    · -- leaf reached: write newitem and bubble it back up
      next h1 =>
      refine siftdownAux_isHeap pos (arr.set pos newitem) pos newitem
        (by simp only [List.length_set]; omega) le_rfl ?_ ?_ ?_ (Or.inl rfl) (Or.inl rfl)
      · intro i hi hi0
        simp only [List.length_set] at hi
        unfold par; omega
      · intro i hi hi0 hip hipp
        simp only [List.length_set] at hi
        rw [G_set_ne arr _ (Ne.symm hip), G_set_ne arr _ (Ne.symm hipp)]
        exact W1 i hi hi0 hip hipp
      · intro i hi hi0 hpari
        simp only [List.length_set] at hi
        exfalso; unfold par at hpari; omega

theorem gd_popA {y : SplitCandidate} {rest : List SplitCandidate}
    (x : SplitCandidate) (hne : (y :: rest) ≠ []) :
    ∀ j, 0 < j → j < ((y :: rest).getLast hne :: (y :: rest).dropLast).length →
      gd ((y :: rest).getLast hne :: (y :: rest).dropLast) j = gd (x :: y :: rest) j := by
  intro j hj0 hjl
  obtain ⟨j', rfl⟩ : ∃ j', j = j' + 1 := ⟨j - 1, by omega⟩
  rw [gd_cons_succ, gd_cons_succ]
  have hj' : j' < (y :: rest).dropLast.length := by
    simp only [List.length_cons] at hjl; omega
  have hj'' : j' < (y :: rest).length := by
    simp only [List.length_dropLast] at hj'; omega
  rw [gd_eq_getElem _ hj', gd_eq_getElem _ hj'']
  exact List.getElem_dropLast _ j' hj'

theorem siftup_isHeap_pop (x y : SplitCandidate) (rest : List SplitCandidate)
    (hl : IsHeap (x :: y :: rest)) (hne : (y :: rest) ≠ []) :
    IsHeap (siftup ((y :: rest).getLast hne :: (y :: rest).dropLast) 0) := by
  unfold siftup
  refine siftupAux_isHeap
    (((y :: rest).getLast hne :: (y :: rest).dropLast).length) _ 0 _ le_rfl
    (by simp) ?_ ?_ ?_
  · intro i hi hi0 _hip hipp
    have hpar_lt : par i < i := by unfold par; omega
    have hpar0 : 0 < par i := Nat.pos_of_ne_zero hipp
    rw [G, G, gd_popA x hne i hi0 hi, gd_popA x hne (par i) hpar0 (lt_trans hpar_lt hi)]
    have hilen : i < (x :: y :: rest).length := by
      simp only [List.length_cons, List.length_dropLast] at hi ⊢; omega
    exact hl i hi0 hilen
  · intro i _hi h0; omega
  · intro h0; omega

theorem heappop_isHeap (l : List SplitCandidate) (hl : IsHeap l)
    (c : SplitCandidate) (h' : List SplitCandidate)
    (h : heappop l = .ok (c, h')) : IsHeap h' := by
  match l, h with
  | [x], h =>
    rw [heappop] at h
    cases h
    intro i _hi0 hi
    simp at hi
  | x :: y :: rest, h =>
    rw [heappop] at h
    cases h
    exact siftup_isHeap_pop c y rest hl (by simp)

theorem heappop_max (l : List SplitCandidate) (hl : IsHeap l)
    (c : SplitCandidate) (h' : List SplitCandidate)
    (h : heappop l = .ok (c, h')) :
    ∀ z ∈ l, z.info.max_gain ≤ c.info.max_gain := by
  have hroot := isHeap_le_root l hl
  match l, h with
  | [x], h =>
    rw [heappop] at h
    cases h
    intro z hz
    simp only [List.mem_singleton] at hz
    subst hz
    exact le_refl _
  | x :: y :: rest, h =>
    rw [heappop] at h
    cases h
    intro z hz
    obtain ⟨n, hn, rfl⟩ := List.mem_iff_getElem.mp hz
    have hle := hroot n hn
    rw [G, G, gd_eq_getElem _ hn] at hle
    exact hle

/-! ### Draining the heap by repeated pops -/

/-- Repeatedly `heappop` until the heap is empty (fuelled; `drain` supplies
enough fuel to empty any heap). -/
def drainFuel : Nat → List SplitCandidate → List SplitCandidate
  | 0, _ => []
  | k + 1, h =>
    match heappop h with
    | .error _ => []
    | .ok (c, h') => c :: drainFuel k h'

/-- Pop-until-empty: the sequence of records returned by repeated `pop`. -/
def drain (h : List SplitCandidate) : List SplitCandidate := drainFuel h.length h

theorem heappop_length (l : List SplitCandidate) (c : SplitCandidate)
    (h' : List SplitCandidate) (h : heappop l = .ok (c, h')) :
    h'.length + 1 = l.length := by
  have := (heappop_perm l c h' h).length_eq
  simpa using this.symm

theorem heappop_of_ne_nil (l : List SplitCandidate) (hne : l ≠ []) :
    ∃ c h', heappop l = .ok (c, h') := by
  match l with
  | [] => exact absurd rfl hne
  | [x] => exact ⟨x, [], rfl⟩
  | x :: y :: rest => exact ⟨_, _, rfl⟩

theorem drainFuel_spec :
    ∀ (k : Nat) (h : List SplitCandidate), h.length ≤ k → IsHeap h →
      (drainFuel k h).Perm h ∧
        ((drainFuel k h).map (fun c => c.info.max_gain)).Sorted (· ≥ ·) := by
  intro k
  induction k with
  | zero =>
    intro h hk _
    have : h = [] := List.eq_nil_of_length_eq_zero (by omega)
    subst this
    exact ⟨List.Perm.refl _, List.sorted_nil⟩
  | succ k ih =>
    intro h hk hh
    by_cases hne : h = []
    · subst hne
      exact ⟨by simp [drainFuel, heappop], by simp [drainFuel, heappop]⟩
    · obtain ⟨c, h', hp⟩ := heappop_of_ne_nil h hne
      have hred : drainFuel (k + 1) h = c :: drainFuel k h' := by
        simp only [drainFuel, hp]
      have hlen := heappop_length h c h' hp
      have hih := ih h' (by omega) (heappop_isHeap h hh c h' hp)
      rw [hred]
      constructor
      · exact (hih.1.cons c).trans (heappop_perm h c h' hp).symm
      · rw [List.map_cons, List.sorted_cons]
        refine ⟨?_, hih.2⟩
        intro b hb
        obtain ⟨z, hz, rfl⟩ := List.mem_map.mp hb
        have hzmem : z ∈ h' := hih.1.mem_iff.mp hz
        have hzh : z ∈ h :=
          (heappop_perm h c h' hp).mem_iff.mpr (List.mem_cons_of_mem c hzmem)
        exact heappop_max h hh c h' hp z hzh

theorem drain_perm (h : List SplitCandidate) (hh : IsHeap h) : (drain h).Perm h :=
  (drainFuel_spec h.length h le_rfl hh).1

theorem drain_sorted (h : List SplitCandidate) (hh : IsHeap h) :
    ((drain h).map (fun c => c.info.max_gain)).Sorted (· ≥ ·) :=
  (drainFuel_spec h.length h le_rfl hh).2

/-! ### batch_push: admission, error and partial-mutation behaviour -/

theorem get?_eq_some_getD {α : Type} (l : List α) (d : α) {i : Nat}
    (h : i < l.length) : l.get? i = some (l.getD i d) := by
  rw [List.get?_eq_getElem?, List.getElem?_eq_getElem h, List.getD_eq_getElem l d h]

/-- The candidate `batch_push` builds from index `i` of the four input
arrays (meaningful when `i` is in range for them all). -/
def mkCand (NI : List Int) (NS : List (List Bool)) (SB : List Int) (SG : List ℚ)
    (i : Nat) : SplitCandidate :=
  ⟨NI.getD i 0, ⟨NS.getD i [], SG.getD i 0, SB.getD i 0⟩⟩

/-- The records the `batch_push` loop admits while scanning the flag list
from absolute index `i`: one record per true flag. -/
def admittedFrom (NI : List Int) (NS : List (List Bool)) (SB : List Int)
    (SG : List ℚ) : List Bool → Nat → List SplitCandidate
  | [], _ => []
  | f :: rest, i =>
    if f then mkCand NI NS SB SG i :: admittedFrom NI NS SB SG rest (i + 1)
    else admittedFrom NI NS SB SG rest (i + 1)

/-- Index `i` is in range for all four data arrays of a `batch_push` call. -/
def inRange (NI : List Int) (NS : List (List Bool)) (SB : List Int)
    (SG : List ℚ) (i : Nat) : Prop :=
  i < NI.length ∧ i < NS.length ∧ i < SB.length ∧ i < SG.length

instance inRange.dec (NI : List Int) (NS : List (List Bool)) (SB : List Int)
    (SG : List ℚ) (i : Nat) : Decidable (inRange NI NS SB SG i) := by
  unfold inRange; infer_instance

theorem batch_pushGo_cons_true_ok (NI : List Int) (NS : List (List Bool))
    (SB : List Int) (SG : List ℚ) (rest : List Bool) (i : Nat)
    (heap : List SplitCandidate) (hin : inRange NI NS SB SG i) :
    SplitCandidateHeap.batch_pushGo NI NS SB SG (true :: rest) i heap =
      SplitCandidateHeap.batch_pushGo NI NS SB SG rest (i + 1)
        (SplitCandidateHeap.push heap (NI.getD i 0) (NS.getD i [])
          (SG.getD i 0) (SB.getD i 0)) := by
  obtain ⟨h1, h2, h3, h4⟩ := hin
  have hni := get?_eq_some_getD NI 0 h1
  have hns := get?_eq_some_getD NS [] h2
  have hsb := get?_eq_some_getD SB 0 h3
  have hsg := get?_eq_some_getD SG 0 h4
  simp only [SplitCandidateHeap.batch_pushGo, hni, hns, hsg, hsb, if_true]

theorem batch_pushGo_cons_true_bad (NI : List Int) (NS : List (List Bool))
    (SB : List Int) (SG : List ℚ) (rest : List Bool) (i : Nat)
    (heap : List SplitCandidate) (hbad : ¬ inRange NI NS SB SG i) :
    SplitCandidateHeap.batch_pushGo NI NS SB SG (true :: rest) i heap =
      (some .indexError, heap) := by
  simp only [SplitCandidateHeap.batch_pushGo, if_true]
  split
  · next a s g b hni hns hsg hsb =>
    exfalso
    apply hbad
    refine ⟨?_, ?_, ?_, ?_⟩
    · by_contra hlen
      rw [List.get?_eq_getElem?, List.getElem?_eq_none (by omega)] at hni
      exact Option.noConfusion hni
    · by_contra hlen
      rw [List.get?_eq_getElem?, List.getElem?_eq_none (by omega)] at hns
      exact Option.noConfusion hns
    · by_contra hlen
      rw [List.get?_eq_getElem?, List.getElem?_eq_none (by omega)] at hsb
      exact Option.noConfusion hsb
    · by_contra hlen
      rw [List.get?_eq_getElem?, List.getElem?_eq_none (by omega)] at hsg
      exact Option.noConfusion hsg
  · rfl

theorem batch_pushGo_cons_false (NI : List Int) (NS : List (List Bool))
    (SB : List Int) (SG : List ℚ) (rest : List Bool) (i : Nat)
    (heap : List SplitCandidate) :
    SplitCandidateHeap.batch_pushGo NI NS SB SG (false :: rest) i heap =
      SplitCandidateHeap.batch_pushGo NI NS SB SG rest (i + 1) heap := by
  simp only [SplitCandidateHeap.batch_pushGo, Bool.false_eq_true, if_false]

theorem batch_pushGo_isHeap (NI : List Int) (NS : List (List Bool))
    (SB : List Int) (SG : List ℚ) :
    ∀ (flags : List Bool) (i : Nat) (heap : List SplitCandidate), IsHeap heap →
      IsHeap (SplitCandidateHeap.batch_pushGo NI NS SB SG flags i heap).2 := by
  intro flags
  induction flags with
  | nil => intro i heap hh; exact hh
  | cons f rest ih =>
    intro i heap hh
    rcases Bool.eq_false_or_eq_true f with hf | hf <;> subst hf
    · by_cases hin : inRange NI NS SB SG i
      · rw [batch_pushGo_cons_true_ok NI NS SB SG rest i heap hin]
        exact ih (i + 1) _ (heappush_isHeap heap _ hh)
      · rw [batch_pushGo_cons_true_bad NI NS SB SG rest i heap hin]
        exact hh
    · rw [batch_pushGo_cons_false]
      exact ih (i + 1) heap hh

theorem batch_pushGo_ok (NI : List Int) (NS : List (List Bool))
    (SB : List Int) (SG : List ℚ) :
    ∀ (flags : List Bool) (i : Nat) (heap : List SplitCandidate),
      (∀ j, j < flags.length → flags.getD j false = true →
        inRange NI NS SB SG (i + j)) →
      (SplitCandidateHeap.batch_pushGo NI NS SB SG flags i heap).1 = none ∧
      (SplitCandidateHeap.batch_pushGo NI NS SB SG flags i heap).2.Perm
        (heap ++ admittedFrom NI NS SB SG flags i) := by
  intro flags
  induction flags with
  | nil =>
    intro i heap _
    exact ⟨rfl, by simp [SplitCandidateHeap.batch_pushGo, admittedFrom]⟩
  | cons f rest ih =>
    intro i heap hrange
    have hshift : ∀ j, j < rest.length → rest.getD j false = true →
        inRange NI NS SB SG (i + 1 + j) := by
      intro j hj hflag
      have := hrange (j + 1) (by simp only [List.length_cons]; omega) hflag
      have heq : i + (j + 1) = i + 1 + j := by omega
      rwa [heq] at this
    rcases Bool.eq_false_or_eq_true f with hf | hf <;> subst hf
    · have hin : inRange NI NS SB SG i := by
        have := hrange 0 (by simp) rfl
        simpa using this
      rw [batch_pushGo_cons_true_ok NI NS SB SG rest i heap hin]
      obtain ⟨hok, hperm⟩ := ih (i + 1) _ hshift
      refine ⟨hok, hperm.trans ?_⟩
      refine ((heappush_perm heap _).append_right _).trans ?_
      have hAF : admittedFrom NI NS SB SG (true :: rest) i
          = mkCand NI NS SB SG i :: admittedFrom NI NS SB SG rest (i + 1) := by
        simp [admittedFrom]
      rw [hAF]
      exact List.perm_middle.symm
    · rw [batch_pushGo_cons_false]
      obtain ⟨hok, hperm⟩ := ih (i + 1) heap hshift
      refine ⟨hok, hperm.trans ?_⟩
      have hAF : admittedFrom NI NS SB SG (false :: rest) i
          = admittedFrom NI NS SB SG rest (i + 1) := by
        simp [admittedFrom]
      rw [hAF]

theorem batch_pushGo_none_iff (NI : List Int) (NS : List (List Bool))
    (SB : List Int) (SG : List ℚ) :
    ∀ (flags : List Bool) (i : Nat) (heap : List SplitCandidate),
      (SplitCandidateHeap.batch_pushGo NI NS SB SG flags i heap).1 = none ↔
        ∀ j, j < flags.length → flags.getD j false = true →
          inRange NI NS SB SG (i + j) := by
  intro flags
  induction flags with
  | nil =>
    intro i heap
    constructor
    · intro _ j hj _
      simp at hj
    · intro _
      rfl
  | cons f rest ih =>
    intro i heap
    rcases Bool.eq_false_or_eq_true f with hf | hf <;> subst hf
    · by_cases hin : inRange NI NS SB SG i
      · rw [batch_pushGo_cons_true_ok NI NS SB SG rest i heap hin, ih (i + 1) _]
        constructor
        · intro hall j hj hflag
          match j with
          | 0 => simpa using hin
          | j' + 1 =>
            have := hall j' (by simp only [List.length_cons] at hj; omega) hflag
            have heq : i + 1 + j' = i + (j' + 1) := by omega
            rwa [heq] at this
        · intro hall j hj hflag
          have := hall (j + 1) (by simp only [List.length_cons]; omega) hflag
          have heq : i + (j + 1) = i + 1 + j := by omega
          rwa [heq] at this
      · rw [batch_pushGo_cons_true_bad NI NS SB SG rest i heap hin]
        constructor
        · intro habs
          exact absurd habs (by simp)
        · intro hall
          exact absurd (by simpa using hall 0 (by simp) rfl) hin
    · rw [batch_pushGo_cons_false, ih (i + 1) heap]
      constructor
      · intro hall j hj hflag
        match j with
        | 0 => simp at hflag
        | j' + 1 =>
          have := hall j' (by simp only [List.length_cons] at hj; omega) hflag
          have heq : i + 1 + j' = i + (j' + 1) := by omega
          rwa [heq] at this
      · intro hall j hj hflag
        have := hall (j + 1) (by simp only [List.length_cons]; omega) hflag
        have heq : i + (j + 1) = i + 1 + j := by omega
        rwa [heq] at this

theorem batch_pushGo_fail (NI : List Int) (NS : List (List Bool))
    (SB : List Int) (SG : List ℚ) :
    ∀ (flags : List Bool) (i : Nat) (heap : List SplitCandidate) (e : PyErr),
      (SplitCandidateHeap.batch_pushGo NI NS SB SG flags i heap).1 = some e →
      e = .indexError ∧
      ∃ n, n < flags.length ∧ flags.getD n false = true ∧
        ¬ inRange NI NS SB SG (i + n) ∧
        (∀ j, j < n → flags.getD j false = true → inRange NI NS SB SG (i + j)) ∧
        (SplitCandidateHeap.batch_pushGo NI NS SB SG flags i heap).2.Perm
          (heap ++ admittedFrom NI NS SB SG (flags.take n) i) := by
  intro flags
  induction flags with
  | nil =>
    intro i heap e habs
    exact absurd habs (by simp [SplitCandidateHeap.batch_pushGo])
  | cons f rest ih =>
    intro i heap e herr
    rcases Bool.eq_false_or_eq_true f with hf | hf <;> subst hf
    · by_cases hin : inRange NI NS SB SG i
      · rw [batch_pushGo_cons_true_ok NI NS SB SG rest i heap hin] at herr ⊢
        obtain ⟨he, n, hn, hflag, hbad, hpre, hperm⟩ := ih (i + 1) _ e herr
        refine ⟨he, n + 1, by simp only [List.length_cons]; omega, hflag, ?_, ?_, ?_⟩
        · have heq : i + (n + 1) = i + 1 + n := by omega
          rw [heq]
          exact hbad
        · intro j hj hfj
          match j with
          | 0 => simpa using hin
          | j' + 1 =>
            have := hpre j' (by omega) hfj
            have heq : i + 1 + j' = i + (j' + 1) := by omega
            rwa [heq] at this
        · have htake : (true :: rest).take (n + 1) = true :: rest.take n := rfl
          rw [htake]
          refine hperm.trans ?_
          refine ((heappush_perm heap _).append_right _).trans ?_
          have hAF : admittedFrom NI NS SB SG (true :: rest.take n) i
              = mkCand NI NS SB SG i :: admittedFrom NI NS SB SG (rest.take n) (i + 1) := by
            simp [admittedFrom]
          rw [hAF]
          exact List.perm_middle.symm
      · rw [batch_pushGo_cons_true_bad NI NS SB SG rest i heap hin] at herr ⊢
        have he : e = PyErr.indexError := by
          injection herr with h
          exact h.symm
        refine ⟨he, 0, by simp, rfl, by simpa using hin,
          fun j hj _ => absurd hj (by omega), ?_⟩
        simp [admittedFrom]
    · rw [batch_pushGo_cons_false] at herr ⊢
      obtain ⟨he, n, hn, hflag, hbad, hpre, hperm⟩ := ih (i + 1) heap e herr
      refine ⟨he, n + 1, by simp only [List.length_cons]; omega, hflag, ?_, ?_, ?_⟩
      · have heq : i + (n + 1) = i + 1 + n := by omega
        rw [heq]
        exact hbad
      · intro j hj hfj
        match j with
        | 0 => simp at hfj
        | j' + 1 =>
          have := hpre j' (by omega) hfj
          have heq : i + 1 + j' = i + (j' + 1) := by omega
          rwa [heq] at this
      · have htake : (false :: rest).take (n + 1) = false :: rest.take n := rfl
        rw [htake]
        refine hperm.trans ?_
        have hAF : admittedFrom NI NS SB SG (false :: rest.take n) i
            = admittedFrom NI NS SB SG (rest.take n) (i + 1) := by
          simp [admittedFrom]
        rw [hAF]

/-! ### Reachable frontier states -/

/-- Heap states reachable by sequences of `SplitCandidateHeap` operations
starting from a freshly constructed heap (`self.heap = []`). -/
inductive Reachable : List SplitCandidate → Prop where
  | init : Reachable SplitCandidateHeap.init
  | push (h : List SplitCandidate) (a : Int) (s : List Bool) (g : ℚ) (b : Int) :
      Reachable h → Reachable (SplitCandidateHeap.push h a s g b)
  | batch_push (h : List SplitCandidate) (NI : List Int) (NS : List (List Bool))
      (SB : List Int) (SG : List ℚ) (flags : List Bool) :
      Reachable h → Reachable (SplitCandidateHeap.batch_push h NI NS SB SG flags).2
  | pop (h : List SplitCandidate) (c : SplitCandidate) (h' : List SplitCandidate) :
      Reachable h → SplitCandidateHeap.pop h = .ok (c, h') → Reachable h'
  | extract_best (h : List SplitCandidate) (r : Int × List Bool × Int)
      (h' : List SplitCandidate) :
      Reachable h → SplitCandidateHeap.extract_best_split_info h = .ok (r, h') →
      Reachable h'
  | extract_all (h : List SplitCandidate) :
      Reachable h → Reachable (SplitCandidateHeap.extract_all_nodes h).2
  | reset (h : List SplitCandidate) :
      Reachable h → Reachable (SplitCandidateHeap.reset h)

theorem extract_best_ok (h : List SplitCandidate) (r : Int × List Bool × Int)
    (h' : List SplitCandidate)
    (hp : SplitCandidateHeap.extract_best_split_info h = .ok (r, h')) :
    ∃ best, heappop h = .ok (best, h') ∧
      r = (best.node_index, best.info.sample_selects, best.info.split_bucket) := by
  unfold SplitCandidateHeap.extract_best_split_info at hp
  cases hh : heappop h with
  | error e =>
    rw [hh] at hp
    exact absurd hp (by simp)
  | ok p =>
    obtain ⟨best, h2⟩ := p
    rw [hh] at hp
    cases hp
    exact ⟨best, rfl, rfl⟩

theorem reachable_isHeap (h : List SplitCandidate) (hr : Reachable h) :
    IsHeap h := by
  induction hr with
  | init =>
    intro i _hi0 hi
    simp [SplitCandidateHeap.init] at hi
  | push h a s g b _ ih => exact heappush_isHeap h _ ih
  | batch_push h NI NS SB SG flags _ ih =>
    exact batch_pushGo_isHeap NI NS SB SG flags 0 h ih
  | pop h c h' _ hp ih => exact heappop_isHeap h ih c h' hp
  | extract_best h r h' _ hp ih =>
    obtain ⟨best, hpop, _⟩ := extract_best_ok h r h' hp
    exact heappop_isHeap h ih best h' hpop
  | extract_all h _ _ =>
    intro i _hi0 hi
    simp [SplitCandidateHeap.extract_all_nodes] at hi
  | reset h _ _ =>
    intro i _hi0 hi
    simp [SplitCandidateHeap.reset] at hi

/-! ### Pushing a whole list of records -/

/-- Push every record of `l`, in order, onto a fresh heap. -/
def pushAll (l : List SplitCandidate) : List SplitCandidate :=
  l.foldl heappush SplitCandidateHeap.init

theorem foldl_heappush_perm :
    ∀ (l acc : List SplitCandidate), (l.foldl heappush acc).Perm (acc ++ l) := by
  intro l
  induction l with
  | nil => intro acc; simp
  | cons c t ih =>
    intro acc
    simp only [List.foldl_cons]
    refine (ih (heappush acc c)).trans ?_
    refine ((heappush_perm acc c).append_right t).trans ?_
    exact List.perm_middle.symm

theorem pushAll_perm (l : List SplitCandidate) : (pushAll l).Perm l := by
  unfold pushAll
  simpa [SplitCandidateHeap.init] using foldl_heappush_perm l []

theorem foldl_heappush_isHeap :
    ∀ (l acc : List SplitCandidate), IsHeap acc → IsHeap (l.foldl heappush acc) := by
  intro l
  induction l with
  | nil => intro acc hh; exact hh
  | cons c t ih =>
    intro acc hh
    simp only [List.foldl_cons]
    exact ih (heappush acc c) (heappush_isHeap acc c hh)

theorem pushAll_isHeap (l : List SplitCandidate) : IsHeap (pushAll l) := by
  unfold pushAll
  refine foldl_heappush_isHeap l [] ?_
  intro i _hi0 hi
  simp at hi

theorem mem_admittedFrom (NI : List Int) (NS : List (List Bool))
    (SB : List Int) (SG : List ℚ) :
    ∀ (flags : List Bool) (i : Nat) (c : SplitCandidate),
      c ∈ admittedFrom NI NS SB SG flags i ↔
        ∃ j, j < flags.length ∧ flags.getD j false = true ∧
          c = mkCand NI NS SB SG (i + j) := by
  intro flags
  induction flags with
  | nil =>
    intro i c
    simp [admittedFrom]
  | cons f rest ih =>
    intro i c
    rcases Bool.eq_false_or_eq_true f with hf | hf <;> subst hf
    · simp only [admittedFrom, if_true, List.mem_cons, ih (i + 1) c]
      constructor
      · rintro (rfl | ⟨j, hj, hfl, rfl⟩)
        · exact ⟨0, by simp, rfl, by simp⟩
        · exact ⟨j + 1, by simp only [List.length_cons]; omega, hfl,
            by rw [Nat.add_comm j 1, ← Nat.add_assoc]⟩
      · rintro ⟨j, hj, hfl, rfl⟩
        match j with
        | 0 => left; simp
        | j' + 1 =>
          right
          refine ⟨j', by simp only [List.length_cons] at hj; omega, hfl, ?_⟩
          rw [Nat.add_comm j' 1, ← Nat.add_assoc]
    · simp only [admittedFrom, Bool.false_eq_true, if_false, ih (i + 1) c]
      constructor
      · rintro ⟨j, hj, hfl, rfl⟩
        exact ⟨j + 1, by simp only [List.length_cons]; omega, hfl,
          by rw [Nat.add_comm j 1, ← Nat.add_assoc]⟩
      · rintro ⟨j, hj, hfl, rfl⟩
        match j with
        | 0 => simp at hfl
        | j' + 1 =>
          refine ⟨j', by simp only [List.length_cons] at hj; omega, hfl, ?_⟩
          rw [Nat.add_comm j' 1, ← Nat.add_assoc]

/-! ### Concrete inputs used by witnesses and counterexamples -/

/-- Witness heap: two pushes onto the fresh frontier. -/
def wH : List SplitCandidate :=
  SplitCandidateHeap.push
    (SplitCandidateHeap.push SplitCandidateHeap.init 1 [true, false] 1 0)
    2 [false, true] 2 1

/-- Candidate with node id 1 and gain 1 (ties with `cB`). -/
def cA : SplitCandidate := ⟨1, ⟨[true], 1, 0⟩⟩

/-- Candidate with node id 2 and gain 1 (ties with `cA`). -/
def cB : SplitCandidate := ⟨2, ⟨[false], 1, 0⟩⟩

/-- Witness batch input: node indices from the spec example. -/
def wNI : List Int := [10, 11]

/-- Witness batch input: sample masks. -/
def wNS : List (List Bool) := [[true], [false]]

/-- Witness batch input: split buckets. -/
def wSB : List Int := [0, 1]

/-- Witness batch input: split gains. -/
def wSG : List ℚ := [2, 1/10]

/-- Witness batch input: admission flags. -/
def wFlags : List Bool := [true, false]

/-! ### The claims -/

/-- C5: `pop()` (and `extract_best_split_info()`) on a frontier containing no
records — in particular on a freshly constructed, never-pushed frontier —
fails with the empty-frontier error (Python: `IndexError: pop from empty
list` raised by `heapq.heappop`). -/
theorem C5_pop_empty_fails :
    SplitCandidateHeap.pop SplitCandidateHeap.init = .error .popFromEmptyList ∧
    SplitCandidateHeap.extract_best_split_info SplitCandidateHeap.init
      = .error .popFromEmptyList :=
  ⟨rfl, rfl⟩

/-- C6: every manager operation invoked before `set_devices` has bound the
execution context (so `self.heap` is still `None`) fails with the
not-initialised error (Python: `AttributeError` on `None`). -/
theorem C6_ops_before_binding :
    ∀ (a : Int) (s : List Bool) (g : ℚ) (b : Int) (NI : List Int)
      (NS : List (List Bool)) (SB : List Int) (SG : List ℚ) (flags : List Bool),
      SplitCandidateManager.push SplitCandidateManager.init a s g b
        = .error .noneAttributeError ∧
      (SplitCandidateManager.batch_push SplitCandidateManager.init NI NS SB SG flags).1
        = some .noneAttributeError ∧
      (SplitCandidateManager.batch_push SplitCandidateManager.init NI NS SB SG flags).2
        = SplitCandidateManager.init ∧
      SplitCandidateManager.extract_best_split_info SplitCandidateManager.init
        = .error .noneAttributeError ∧
      SplitCandidateManager.extract_all_nodes SplitCandidateManager.init
        = .error .noneAttributeError ∧
      SplitCandidateManager.reset SplitCandidateManager.init
        = .error .noneAttributeError :=
  fun _ _ _ _ _ _ _ _ _ => ⟨rfl, rfl, rfl, rfl, rfl, rfl⟩

/-- C8: `reset()` always leaves the frontier empty, returns nothing, and is
idempotent; on an already-empty frontier it is a no-op. -/
theorem C8_reset_empties_idempotent (h : List SplitCandidate) :
    SplitCandidateHeap.reset h = SplitCandidateHeap.init ∧
    SplitCandidateHeap.reset (SplitCandidateHeap.reset h) = SplitCandidateHeap.reset h ∧
    SplitCandidateHeap.reset SplitCandidateHeap.init = SplitCandidateHeap.init :=
  ⟨rfl, rfl, rfl⟩

/-- C7: `extract_all_nodes()` returns exactly the `(node_id, sample_mask)`
pairs of the stored records (one pair per record, no omissions, no
duplicates), leaves the frontier empty (a subsequent `pop` fails), an
immediately repeated call returns empty lists, and after pushing the records
of `l` the returned pairs are exactly those of `l` up to order. -/
theorem C7_extract_all_roundtrip (h l : List SplitCandidate) :
    ((SplitCandidateHeap.extract_all_nodes h).1.1.zip
        (SplitCandidateHeap.extract_all_nodes h).1.2)
      = h.map (fun c => (c.node_index, c.info.sample_selects)) ∧
    (SplitCandidateHeap.extract_all_nodes h).2 = [] ∧
    SplitCandidateHeap.pop ((SplitCandidateHeap.extract_all_nodes h).2)
      = .error .popFromEmptyList ∧
    (SplitCandidateHeap.extract_all_nodes
        ((SplitCandidateHeap.extract_all_nodes h).2)).1 = ([], []) ∧
    ((SplitCandidateHeap.extract_all_nodes (pushAll l)).1.1.zip
        (SplitCandidateHeap.extract_all_nodes (pushAll l)).1.2).Perm
      (l.map (fun c => (c.node_index, c.info.sample_selects))) := by
  refine ⟨List.zip_map' _ _ h, rfl, rfl, rfl, ?_⟩
  show (((pushAll l).map (fun c => c.node_index)).zip
      ((pushAll l).map (fun c => c.info.sample_selects))).Perm _
  rw [List.zip_map']
  exact (pushAll_perm l).map _

/-- C10: the two lists returned by `extract_all_nodes()` have equal length
and correspond positionally: entry `i` of both comes from the candidate
stored at position `i` of the heap. -/
theorem C10_extract_all_positional (h : List SplitCandidate) :
    (SplitCandidateHeap.extract_all_nodes h).1.1.length
      = (SplitCandidateHeap.extract_all_nodes h).1.2.length ∧
    ∀ i, i < h.length →
      (SplitCandidateHeap.extract_all_nodes h).1.1.getD i 0 = (gd h i).node_index ∧
      (SplitCandidateHeap.extract_all_nodes h).1.2.getD i []
        = (gd h i).info.sample_selects := by
  constructor
  · simp [SplitCandidateHeap.extract_all_nodes]
  · intro i hi
    constructor
    · show (h.map (fun c => c.node_index)).getD i 0 = _
      rw [List.getD_eq_getElem _ _ (by simpa using hi), List.getElem_map,
        gd_eq_getElem h hi]
    · show (h.map (fun c => c.info.sample_selects)).getD i [] = _
      rw [List.getD_eq_getElem _ _ (by simpa using hi), List.getElem_map,
        gd_eq_getElem h hi]

/-- C10 witness: the positional correspondence evaluated on a one-record
heap. -/
theorem C10_witness :
    (SplitCandidateHeap.extract_all_nodes [cA]).1.1.getD 0 0
        = (gd [cA] 0).node_index ∧
      (SplitCandidateHeap.extract_all_nodes [cA]).1.2.getD 0 []
        = (gd [cA] 0).info.sample_selects :=
  (C10_extract_all_positional [cA]).2 0 (by decide)

/-! ### Small-step evaluation helpers for concrete heaps -/

theorem heappush_nil (c : SplitCandidate) : heappush [] c = [c] := by
  unfold heappush
  rw [siftdownAux]
  simp

theorem heappush_two_notlt (a b : SplitCandidate)
    (h : SplitCandidate.lt b a = false) : heappush [a] b = [a, b] := by
  unfold heappush
  rw [siftdownAux]
  simp [gd, h]

theorem heappop_single (a : SplitCandidate) : heappop [a] = .ok (a, []) := rfl

theorem heappop_pair (a b : SplitCandidate) : heappop [a, b] = .ok (a, [b]) := by
  have h1 : siftup [b] 0 = [b] := by
    unfold siftup
    rw [siftupAux]
    simp [gd]
    rw [siftdownAux]
    simp
  rw [heappop]
  simp [h1]

theorem drain_pair (a b : SplitCandidate) : drain [a, b] = [a, b] := by
  show drainFuel 2 [a, b] = [a, b]
  simp only [drainFuel, heappop_pair a b, heappop_single b]

/-- C1: for every frontier state reachable by any sequence of push /
batch_push (and the other frontier operations), `pop` returns a stored
record of maximum gain and removes exactly one record, and pop-until-empty
yields a non-increasing gain sequence. -/
theorem C1_pop_max_drain_nonincreasing (h : List SplitCandidate)
    (hr : Reachable h) :
    (∀ c h', SplitCandidateHeap.pop h = .ok (c, h') →
      (∀ z ∈ h, z.info.max_gain ≤ c.info.max_gain) ∧ h.Perm (c :: h')) ∧
    ((drain h).map (fun c => c.info.max_gain)).Sorted (· ≥ ·) := by
  have hh := reachable_isHeap h hr
  exact ⟨fun c h' hp => ⟨heappop_max h hh c h' hp, heappop_perm h c h' hp⟩,
    drain_sorted h hh⟩

/-- C1 witness: the pop/drain guarantees instantiated at a concrete
two-push frontier. -/
theorem C1_witness :
    (∀ c h', SplitCandidateHeap.pop wH = .ok (c, h') →
      (∀ z ∈ wH, z.info.max_gain ≤ c.info.max_gain) ∧ wH.Perm (c :: h')) ∧
    ((drain wH).map (fun c => c.info.max_gain)).Sorted (· ≥ ·) :=
  C1_pop_max_drain_nonincreasing wH
    (Reachable.push _ 2 [false, true] 2 1
      (Reachable.push _ 1 [true, false] 1 0 Reachable.init))

/-- C2: with equal-length inputs, `batch_push` succeeds, and the resulting
multiset of stored records is exactly the prior records plus one record per
true admission flag; consequently anything later returned by `pop` or
`extract_all_nodes` stems from a prior record or an admitted index. -/
theorem C2_batch_push_admission (heap : List SplitCandidate) (NI : List Int)
    (NS : List (List Bool)) (SB : List Int) (SG : List ℚ) (flags : List Bool)
    (hlen : NI.length = flags.length ∧ NS.length = flags.length ∧
      SB.length = flags.length ∧ SG.length = flags.length) :
    (SplitCandidateHeap.batch_push heap NI NS SB SG flags).1 = none ∧
    (SplitCandidateHeap.batch_push heap NI NS SB SG flags).2.Perm
      (heap ++ admittedFrom NI NS SB SG flags 0) ∧
    (∀ c, c ∈ (SplitCandidateHeap.batch_push heap NI NS SB SG flags).2 →
      c ∈ heap ∨ ∃ i, i < flags.length ∧ flags.getD i false = true ∧
        c = mkCand NI NS SB SG i) ∧
    (∀ c h', SplitCandidateHeap.pop
        (SplitCandidateHeap.batch_push heap NI NS SB SG flags).2 = .ok (c, h') →
      c ∈ heap ∨ ∃ i, i < flags.length ∧ flags.getD i false = true ∧
        c = mkCand NI NS SB SG i) ∧
    (∀ z, z ∈ (SplitCandidateHeap.extract_all_nodes
        (SplitCandidateHeap.batch_push heap NI NS SB SG flags).2).1.1 →
      z ∈ heap.map (fun c => c.node_index) ∨
        ∃ i, i < flags.length ∧ flags.getD i false = true ∧ z = NI.getD i 0) := by
  obtain ⟨l1, l2, l3, l4⟩ := hlen
  have hrange : ∀ j, j < flags.length → flags.getD j false = true →
      inRange NI NS SB SG (0 + j) := by
    intro j hj _
    exact ⟨by omega, by omega, by omega, by omega⟩
  obtain ⟨hok, hperm⟩ := batch_pushGo_ok NI NS SB SG flags 0 heap hrange
  have hmem : ∀ c, c ∈ (SplitCandidateHeap.batch_push heap NI NS SB SG flags).2 →
      c ∈ heap ∨ ∃ i, i < flags.length ∧ flags.getD i false = true ∧
        c = mkCand NI NS SB SG i := by
    intro c hc
    rcases List.mem_append.mp (hperm.mem_iff.mp hc) with hmem | hmem
    · exact Or.inl hmem
    · obtain ⟨j, hj, hfl, rfl⟩ := (mem_admittedFrom NI NS SB SG flags 0 c).mp hmem
      exact Or.inr ⟨j, hj, hfl, by rw [Nat.zero_add]⟩
  refine ⟨hok, hperm, hmem, ?_, ?_⟩
  · intro c h' hp
    exact hmem c ((heappop_perm _ c h' hp).mem_iff.mpr (List.mem_cons_self c h'))
  · intro z hz
    simp only [SplitCandidateHeap.extract_all_nodes] at hz
    obtain ⟨c, hc, rfl⟩ := List.mem_map.mp hz
    rcases hmem c hc with hmem2 | ⟨i, hi, hfl, rfl⟩
    · exact Or.inl (List.mem_map.mpr ⟨c, hmem2, rfl⟩)
    · exact Or.inr ⟨i, hi, hfl, rfl⟩

/-- C2 witness: the admission behaviour at the spec's example
`batch_push(ids=[10,11], masks=[m1,m2], buckets=[0,1], gains=[2.0,0.1],
admit=[true,false])` on a fresh frontier. -/
theorem C2_witness :
    (SplitCandidateHeap.batch_push SplitCandidateHeap.init wNI wNS wSB wSG wFlags).1
      = none ∧
    (SplitCandidateHeap.batch_push SplitCandidateHeap.init wNI wNS wSB wSG wFlags).2.Perm
      (SplitCandidateHeap.init ++ admittedFrom wNI wNS wSB wSG wFlags 0) ∧
    (∀ c, c ∈ (SplitCandidateHeap.batch_push SplitCandidateHeap.init wNI wNS wSB wSG
        wFlags).2 →
      c ∈ SplitCandidateHeap.init ∨ ∃ i, i < wFlags.length ∧
        wFlags.getD i false = true ∧ c = mkCand wNI wNS wSB wSG i) ∧
    (∀ c h', SplitCandidateHeap.pop
        (SplitCandidateHeap.batch_push SplitCandidateHeap.init wNI wNS wSB wSG
          wFlags).2 = .ok (c, h') →
      c ∈ SplitCandidateHeap.init ∨ ∃ i, i < wFlags.length ∧
        wFlags.getD i false = true ∧ c = mkCand wNI wNS wSB wSG i) ∧
    (∀ z, z ∈ (SplitCandidateHeap.extract_all_nodes
        (SplitCandidateHeap.batch_push SplitCandidateHeap.init wNI wNS wSB wSG
          wFlags).2).1.1 →
      z ∈ SplitCandidateHeap.init.map (fun c => c.node_index) ∨
        ∃ i, i < wFlags.length ∧ wFlags.getD i false = true ∧
          z = wNI.getD i 0) :=
  C2_batch_push_admission SplitCandidateHeap.init wNI wNS wSB wSG wFlags
    ⟨rfl, rfl, rfl, rfl⟩

/-- C3 counterexample: a `batch_push` whose five inputs do NOT all have
equal length (node ids have length 2, every other array length 1) completes
with no error at all, so mismatched lengths do not always fail. -/
theorem C3_counterexample :
    (([1, 2] : List Int).length ≠ ([true] : List Bool).length) ∧
    (SplitCandidateHeap.batch_push SplitCandidateHeap.init [1, 2] [[true]] [0] [2]
      [true]).1 = none :=
  ⟨by decide, rfl⟩

/-- C3 amended: `batch_push` performs no length validation; it raises
(`IndexError`) exactly when some index with a true admission flag is out of
range for one of the four data arrays, and any error it raises is that
index error.  Mismatched lengths whose admitted indices are all in range
succeed silently. -/
theorem C3_amended_error_iff (heap : List SplitCandidate) (NI : List Int)
    (NS : List (List Bool)) (SB : List Int) (SG : List ℚ) (flags : List Bool) :
    ((SplitCandidateHeap.batch_push heap NI NS SB SG flags).1 = none ↔
      ∀ j, j < flags.length → flags.getD j false = true →
        inRange NI NS SB SG j) ∧
    (∀ e, (SplitCandidateHeap.batch_push heap NI NS SB SG flags).1 = some e →
      e = PyErr.indexError) := by
  constructor
  · have h := batch_pushGo_none_iff NI NS SB SG flags 0 heap
    simpa using h
  · intro e he
    exact (batch_pushGo_fail NI NS SB SG flags 0 heap e he).1

/-- C4 counterexample: a failing `batch_push` (two admitted flags, but the
node-id array runs out at index 1) leaves the frontier mutated: the record
admitted at index 0 is still stored after the error. -/
theorem C4_counterexample :
    (SplitCandidateHeap.batch_push SplitCandidateHeap.init [1] [[true]] [0, 0] [2, 3]
      [true, true]).1 = some PyErr.indexError ∧
    (SplitCandidateHeap.batch_push SplitCandidateHeap.init [1] [[true]] [0, 0] [2, 3]
      [true, true]).2 = [⟨1, ⟨[true], 2, 0⟩⟩] ∧
    ([⟨1, ⟨[true], 2, 0⟩⟩] : List SplitCandidate) ≠ SplitCandidateHeap.init := by
  refine ⟨rfl, ?_, by simp [SplitCandidateHeap.init]⟩
  show SplitCandidateHeap.push SplitCandidateHeap.init 1 [true] 2 0 = _
  exact heappush_nil _

/-- C4 amended: a failed `batch_push` reports the index error and leaves the
frontier partially mutated in a precise way: exactly the records admitted at
indices before the first failing admitted index have been inserted,
alongside all previously stored records. -/
theorem C4_amended_partial_mutation (heap : List SplitCandidate) (NI : List Int)
    (NS : List (List Bool)) (SB : List Int) (SG : List ℚ) (flags : List Bool)
    (e : PyErr)
    (herr : (SplitCandidateHeap.batch_push heap NI NS SB SG flags).1 = some e) :
    e = PyErr.indexError ∧
    ∃ n, n < flags.length ∧ flags.getD n false = true ∧
      ¬ inRange NI NS SB SG n ∧
      (∀ j, j < n → flags.getD j false = true → inRange NI NS SB SG j) ∧
      (SplitCandidateHeap.batch_push heap NI NS SB SG flags).2.Perm
        (heap ++ admittedFrom NI NS SB SG (flags.take n) 0) := by
  obtain ⟨he, n, hn, hfl, hbad, hpre, hperm⟩ :=
    batch_pushGo_fail NI NS SB SG flags 0 heap e herr
  refine ⟨he, n, hn, hfl, by simpa using hbad, ?_, hperm⟩
  intro j hj hfj
  simpa using hpre j hj hfj

/-- C4 witness: the partial-mutation characterisation instantiated at the
failing call of the counterexample. -/
theorem C4_witness :
    PyErr.indexError = PyErr.indexError ∧
    ∃ n, n < ([true, true] : List Bool).length ∧
      ([true, true] : List Bool).getD n false = true ∧
      ¬ inRange [1] [[true]] [0, 0] [2, 3] n ∧
      (∀ j, j < n → ([true, true] : List Bool).getD j false = true →
        inRange [1] [[true]] [0, 0] [2, 3] j) ∧
      (SplitCandidateHeap.batch_push SplitCandidateHeap.init [1] [[true]] [0, 0]
        [2, 3] [true, true]).2.Perm
        (SplitCandidateHeap.init ++ admittedFrom [1] [[true]] [0, 0] [2, 3]
          (([true, true] : List Bool).take n) 0) :=
  C4_amended_partial_mutation SplitCandidateHeap.init [1] [[true]] [0, 0] [2, 3]
    [true, true] PyErr.indexError rfl

/-- C9 counterexample: two records with equal gain but different node ids,
pushed in the two possible orders, are popped in different orders — so pop
results are not determined by gain alone when gains tie. -/
theorem C9_counterexample :
    ((drain (pushAll [cA, cB])).map (fun c => c.node_index))
      ≠ ((drain (pushAll [cB, cA])).map (fun c => c.node_index)) := by
  have h1 : pushAll [cA, cB] = [cA, cB] := by
    show heappush (heappush SplitCandidateHeap.init cA) cB = _
    rw [show heappush SplitCandidateHeap.init cA = [cA] from heappush_nil cA]
    exact heappush_two_notlt cA cB (by decide)
  have h2 : pushAll [cB, cA] = [cB, cA] := by
    show heappush (heappush SplitCandidateHeap.init cB) cA = _
    rw [show heappush SplitCandidateHeap.init cB = [cB] from heappush_nil cB]
    exact heappush_two_notlt cB cA (by decide)
  rw [h1, h2, drain_pair, drain_pair]
  decide

/-- C9 amended: the insertion order of a fixed multiset of admitted records
does not affect the multiset of popped records nor the popped gain
sequence; only which record is returned among tied gains may depend on
insertion order. -/
theorem C9_amended_gain_sequence (l l' : List SplitCandidate)
    (hperm : l.Perm l') :
    (drain (pushAll l)).Perm (drain (pushAll l')) ∧
    ((drain (pushAll l)).map (fun c => c.info.max_gain))
      = ((drain (pushAll l')).map (fun c => c.info.max_gain)) := by
  have h1 : (drain (pushAll l)).Perm l :=
    (drain_perm _ (pushAll_isHeap l)).trans (pushAll_perm l)
  have h2 : (drain (pushAll l')).Perm l' :=
    (drain_perm _ (pushAll_isHeap l')).trans (pushAll_perm l')
  have hp : (drain (pushAll l)).Perm (drain (pushAll l')) :=
    (h1.trans hperm).trans h2.symm
  exact ⟨hp, List.eq_of_perm_of_sorted (hp.map _)
    (drain_sorted _ (pushAll_isHeap l)) (drain_sorted _ (pushAll_isHeap l'))⟩

/-- C9 witness: the order-independence of the drained gain sequence at the
two insertion orders of the counterexample records. -/
theorem C9_witness :
    (drain (pushAll [cA, cB])).Perm (drain (pushAll [cB, cA])) ∧
    ((drain (pushAll [cA, cB])).map (fun c => c.info.max_gain))
      = ((drain (pushAll [cB, cA])).map (fun c => c.info.max_gain)) :=
  C9_amended_gain_sequence [cA, cB] [cB, cA] (by decide)
